import Mathlib

/-!
Verification of the mimic-core filesystem helpers
(`packages/mimic-core/src/utils.ts`).

Shallow embedding conventions:
* A filesystem path is a `List String` of components; the filesystem
  root `"/"` is the empty list, `path.dirname` is `List.dropLast`, and
  `path.join dir name` is `dir ++ [name]`.
* The asynchronous filesystem primitives (`fs.stat`, `fs.readFile`)
  become total functions into `Except JsError _`; a rejected callback is
  an `.error` value.
* JavaScript strings are modelled through their character lists
  (`String.data`); `String.prototype.slice(16, -1)` becomes
  `(·.data.drop 16).dropLast`, `String.prototype.includes` becomes the
  sublist test `hasSub`, and `path.extname` is re-implemented on the
  basename below.
-/

/-- Errors that the modelled callbacks and promises can carry.
`noGitRoot` models `new Error("no git root detected")`; the remaining
constructors model the distinguishable `fs` failure kinds. -/
inductive JsError where
  | noGitRoot : JsError
  | notFound : JsError
  | permission : JsError
  | ioError : JsError
deriving DecidableEq, Repr

/-- The `IGit` interface of `utils.ts`: root path, branch name, head. -/
structure IGit where
  root : List String
  branch : String
  head : String
deriving DecidableEq, Repr

/-- The ambient filesystem seen by `detectGit`/`readGitMeta`:
`stat p` models `fs.stat(p)` (the result value is irrelevant to the
code, so it is `Unit`), `readFile p` models `fs.readFile(p, "utf8")`. -/
structure FS where
  stat : List String → Except JsError Unit
  readFile : List String → Except JsError String

/-- Branch extraction of `utils.ts` line 16: `branchData.slice(16, -1)`
drops the first 16 characters and the final character. -/
def branchOf (branchData : String) : String :=
  String.mk ((branchData.data.drop 16).dropLast)

/-- `readGitMeta` of `utils.ts` (lines 13-22): read `<root>/.git/HEAD`,
slice out the branch, read `<root>/.git/refs/heads/<branch>`, and
return `{root, head, branch}`; either read error is passed through. -/
def readGitMeta (fsys : FS) (root : List String) : Except JsError IGit :=
  match fsys.readFile (root ++ [".git", "HEAD"]) with
  | .error branchErr => .error branchErr
  | .ok branchData =>
    let branch := branchOf branchData
    match fsys.readFile (root ++ [".git", "refs", "heads", branch]) with
    | .error headErr => .error headErr
    | .ok head => .ok { root := root, branch := branch, head := head }

/-- `detectGit` of `utils.ts` (lines 35-52): stop with an error at the
filesystem root or at the 10th iteration; otherwise go one folder up,
stat `<dir>/.git`, recurse on any stat error, and hand off to
`readGitMeta` on stat success. -/
def detectGit (fsys : FS) (directory : List String) (iter : Nat) :
    Except JsError IGit :=
  if h : directory = [] ∨ iter = 10 then
    .error .noGitRoot
  else
    match fsys.stat (directory.dropLast ++ [".git"]) with
    | .error _ => detectGit fsys directory.dropLast (iter + 1)
    | .ok _ => readGitMeta fsys directory.dropLast
termination_by directory.length
decreasing_by
  have hne : directory ≠ [] := fun hnil => h (Or.inl hnil)
  have : directory.length ≠ 0 := fun h0 => hne (List.eq_nil_of_length_eq_zero h0)
  simp only [List.length_dropLast]
  omega

/-- A settled promise in the completion-order model: its final result
(`.ok` = fulfilled, `.error` = rejected) together with the instant at
which it settles. -/
structure SimPromise (α ε : Type) where
  result : Except ε α
  time : Nat

/-- The `p.then(val => Promise.reject(val), err => Promise.resolve(err))`
inversion of `raceSuccess` (utils.ts lines 76-79): fulfilment and
rejection are swapped, the settling instant is unchanged. -/
def swapResult : Except ε α → Except α ε
  | .ok a => .error a
  | .error e => .ok e

/-- Promise inversion: swap success and failure, keep the time. -/
def invert (p : SimPromise α ε) : SimPromise ε α :=
  { result := swapResult p.result, time := p.time }

/-- The rejection that decides `Promise.all`: among the rejected
promises, the one settling earliest (ties broken towards the front of
the list, matching same-tick microtask order). -/
def earliestRejection : List (SimPromise α ε) → Option (ε × Nat)
  | [] => none
  | p :: ps =>
    match p.result, earliestRejection ps with
    | .error e, some (e', t') => if p.time ≤ t' then some (e, p.time) else some (e', t')
    | .error e, none => some (e, p.time)
    | .ok _, r => r

/-- `Promise.all` in the completion-order model: it rejects with the
first rejection in completion order, and otherwise fulfils with every
branch's value in input order. -/
def promiseAll (ps : List (SimPromise α ε)) : Except ε (List α) :=
  match earliestRejection ps with
  | some (e, _) => .error e
  | none => .ok (ps.filterMap (fun p => p.result.toOption))

/-- `raceSuccess` of `utils.ts` (lines 74-84): invert every attempt,
join with `Promise.all`, and swap the joined outcome back, so that the
aggregate of all failures becomes the overall rejection and the first
success in completion order becomes the overall fulfilment. -/
def raceSuccess (ps : List (SimPromise α ε)) : Except (List ε) α :=
  match promiseAll (ps.map invert) with
  | .ok errs => .error errs
  | .error v => .ok v

/-- `s` starts with `pat` (character lists). -/
def hasPre : List Char → List Char → Bool
  | [], _ => true
  | _ :: _, [] => false
  | p :: ps, c :: cs => p == c && hasPre ps cs

/-- `String.prototype.includes`: `pat` occurs as a contiguous substring
of `s` (character lists, case-sensitive). -/
def hasSub (pat : List Char) : List Char → Bool
  | [] => pat.isEmpty
  | c :: cs => hasPre pat (c :: cs) || hasSub pat cs

/-- `path.extname` on a basename: the part from the last `'.'` to the
end, or `""` when there is no dot or the only/last dot is the leading
character. -/
def extname (s : String) : String :=
  let cs := s.data
  let after := (cs.reverse.takeWhile (fun c => c ≠ '.')).reverse
  if after.length = cs.length then ""
  else if cs.length = after.length + 1 then ""
  else String.mk ('.' :: after)

/-- The filter test of `utils.ts` line 163:
`path.extname(abs).includes(ext)`, with `path.extname` applied to the
basename (the last component of the absolute path). -/
def extMatches (abs : List String) (ext : String) : Bool :=
  hasSub ext.data (extname (abs.getLastD "")).data

/-- The filesystem subtree seen by `readRecursively` at one path.
`file` is a regular file whose read either yields content or fails;
`dir` lists named children; `dirErr` is a directory whose `readdir`
fails; `badStat` is a path whose `stat` fails; `other` is a path whose
stat succeeds but which is neither a regular file nor a directory. -/
inductive FsNode where
  | file (content : Except JsError String)
  | dir (entries : List (String × FsNode))
  | dirErr (e : JsError)
  | badStat (e : JsError)
  | other

/-- One step of `Object.assign` for a single key: JavaScript updates an
existing key in place and appends a fresh key at the end. -/
def jsInsert (m : List (List String × String)) (k : List String) (v : String) :
    List (List String × String) :=
  if m.any (fun p => p.1 = k) then
    m.map (fun p => if p.1 = k then (k, v) else p)
  else m ++ [(k, v)]

/-- `Object.assign m n`: fold every key/value pair of `n` into `m`. -/
def jsAssign (m n : List (List String × String)) : List (List String × String) :=
  n.foldl (fun acc kv => jsInsert acc kv.1 kv.2) m

mutual

/-- `readRecursively` of `utils.ts` (lines 156-181) on the subtree
rooted at the already-resolved absolute path `abs`: a stat failure
rejects; a regular file whose extension passes the `includes` filter
contributes `{abs: content}` (its read failure rejects) and otherwise
contributes nothing; a directory fans out over its entries (a `readdir`
failure or any child failure rejects) and merges the child mappings
with `Object.assign`; anything else resolves to the empty mapping. -/
def readRecursively (abs : List String) (ext : String) :
    FsNode → Except JsError (List (List String × String))
  | .badStat e => .error e
  | .file content =>
    if extMatches abs ext then
      match content with
      | .error e => .error e
      | .ok cont => .ok [(abs, cont)]
    else .ok []
  | .dirErr e => .error e
  | .dir entries =>
    match readChildren abs ext entries with
    | .error e => .error e
    | .ok values => .ok (values.foldl jsAssign [])
  | .other => .ok []

/-- The `Promise.all(paths.map((p) => readRecursively(p, ext)))` fan-out
of `utils.ts` line 173, in input order: the first child failure wins,
otherwise all child mappings are collected in order. -/
def readChildren (abs : List String) (ext : String) :
    List (String × FsNode) → Except JsError (List (List (List String × String)))
  | [] => .ok []
  | (name, child) :: rest =>
    match readRecursively (abs ++ [name]) ext child with
    | .error e => .error e
    | .ok v =>
      match readChildren abs ext rest with
      | .error e => .error e
      | .ok vs => .ok (v :: vs)

end

mutual

/-- Whether the traversal of `readRecursively` meets a failing
filesystem operation somewhere in the subtree at `abs`: a failing stat
or `readdir` always counts, a failing file read only counts when the
extension filter lets the read happen. -/
def hasFailure (abs : List String) (ext : String) : FsNode → Bool
  | .badStat _ => true
  | .file (.error _) => extMatches abs ext
  | .file (.ok _) => false
  | .dirErr _ => true
  | .dir entries => anyFailure abs ext entries
  | .other => false

/-- `hasFailure` over a directory's entries. -/
def anyFailure (abs : List String) (ext : String) :
    List (String × FsNode) → Bool
  | [] => false
  | (name, child) :: rest =>
    hasFailure (abs ++ [name]) ext child || anyFailure abs ext rest

end

mutual

/-- The failures the traversal of `readRecursively` would meet in the
subtree at `abs`, in traversal order. -/
def errorsIn (abs : List String) (ext : String) : FsNode → List JsError
  | .badStat e => [e]
  | .file (.error e) => if extMatches abs ext then [e] else []
  | .file (.ok _) => []
  | .dirErr e => [e]
  | .dir entries => errorsInList abs ext entries
  | .other => []

/-- `errorsIn` over a directory's entries, in order. -/
def errorsInList (abs : List String) (ext : String) :
    List (String × FsNode) → List JsError
  | [] => []
  | (name, child) :: rest =>
    errorsIn (abs ++ [name]) ext child ++ errorsInList abs ext rest

end

mutual

/-- Well-formedness of a modelled subtree: in every directory the entry
names are pairwise distinct, as a real filesystem guarantees. -/
def nodupTree : FsNode → Bool
  | .dir entries => nodupEntries entries
  | _ => true

/-- `nodupTree` over a directory's entries: the head name does not
recur in the tail, and every subtree is itself well-formed. -/
def nodupEntries : List (String × FsNode) → Bool
  | [] => true
  | (name, child) :: rest =>
    !(rest.any (fun p => p.1 = name)) && nodupTree child && nodupEntries rest

end

/-- Whether a modelled callback/promise outcome is a failure. -/
def isErr {ε α : Type} : Except ε α → Bool
  | .error _ => true
  | .ok _ => false

/-- The filter condition as the specification words it: the extension
satisfies a case-sensitive *suffix* match against the configured
filter (the source instead uses `String.prototype.includes`). -/
def specSuffixMatch (extension filter : String) : Bool :=
  hasPre filter.data.reverse extension.data.reverse

/-- Fixture: a filesystem whose only `.git` marker is at `["m"]`, with
a well-formed `HEAD` and ref record there. -/
def fsMarker : FS :=
  { stat := fun p => if p = ["m", ".git"] then .ok () else .error .notFound
    readFile := fun p =>
      if p = ["m", ".git", "HEAD"] then .ok "ref: refs/heads/main\n"
      else if p = ["m", ".git", "refs", "heads", "main"] then .ok "abc\n"
      else .error .notFound }

/-- Fixture: a filesystem with no `.git` marker anywhere; every stat
fails with a permission error. -/
def fsNoMarker : FS :=
  { stat := fun _ => .error .permission
    readFile := fun _ => .error .notFound }

/-- Fixture: a filesystem with a `.git` marker at `["m"]` whose
metadata records are unreadable. -/
def fsHeadless : FS :=
  { stat := fun p => if p = ["m", ".git"] then .ok () else .error .notFound
    readFile := fun _ => .error .ioError }

/-- Fixture: metadata records under two roots, one well-formed
(`["r"]`) and one whose ref record is unreadable (`["s"]`). -/
def fsMeta : FS :=
  { stat := fun _ => .error .notFound
    readFile := fun p =>
      if p = ["r", ".git", "HEAD"] then .ok "ref: refs/heads/main\n"
      else if p = ["r", ".git", "refs", "heads", "main"] then .ok "abc123\n"
      else if p = ["s", ".git", "HEAD"] then .ok "ref: refs/heads/dev\n"
      else if p = ["s", ".git", "refs", "heads", "dev"] then .error .permission
      else .error .notFound }

/-- Fixture: a subtree holding one readable file and, deeper down, a
path whose stat fails. -/
def treeWithFailure : FsNode :=
  .dir [("a", .file (.ok "x")), ("b", .dir [("c", .badStat .permission)])]

/-- Fixture: a well-formed subtree with two readable files in distinct
branches and one special (neither-file-nor-directory) node. -/
def treeWellFormed : FsNode :=
  .dir [("a", .file (.ok "x")),
        ("sub", .dir [("b", .file (.ok "y")), ("c", .other)])]

/-! ### Lemmas about the race combinator -/

theorem earliestRejection_cons_err_some {α ε : Type}
    {p : SimPromise α ε} {ps : List (SimPromise α ε)} {a e' : ε} {t' : Nat}
    (hp : p.result = .error a) (hr : earliestRejection ps = some (e', t')) :
    earliestRejection (p :: ps) =
      if p.time ≤ t' then some (a, p.time) else some (e', t') := by
  rw [earliestRejection, hp, hr]

theorem earliestRejection_cons_err_none {α ε : Type}
    {p : SimPromise α ε} {ps : List (SimPromise α ε)} {a : ε}
    (hp : p.result = .error a) (hr : earliestRejection ps = none) :
    earliestRejection (p :: ps) = some (a, p.time) := by
  rw [earliestRejection, hp, hr]

theorem earliestRejection_cons_ok {α ε : Type}
    {p : SimPromise α ε} {ps : List (SimPromise α ε)} {a : α}
    (hp : p.result = .ok a) :
    earliestRejection (p :: ps) = earliestRejection ps := by
  rcases hr : earliestRejection ps with _ | ⟨e', t'⟩ <;> rw [earliestRejection, hp, hr]

theorem earliestRejection_mem {α ε : Type} :
    ∀ {l : List (SimPromise α ε)} {e : ε} {t : Nat},
      earliestRejection l = some (e, t) →
      ∃ q ∈ l, q.result = .error e ∧ q.time = t := by
  intro l
  induction l with
  | nil => intro e t h; simp [earliestRejection] at h
  | cons p ps ih =>
    intro e t h
    rcases hp : p.result with a | v
    · rcases hr : earliestRejection ps with _ | ⟨e', t'⟩
      · rw [earliestRejection_cons_err_none hp hr] at h
        cases h
        exact ⟨p, List.mem_cons_self p ps, hp, rfl⟩
      · rw [earliestRejection_cons_err_some hp hr] at h
        by_cases hle : p.time ≤ t'
        · rw [if_pos hle] at h
          cases h
          exact ⟨p, List.mem_cons_self p ps, hp, rfl⟩
        · rw [if_neg hle] at h
          cases h
          obtain ⟨q, hq, hqr, hqt⟩ := ih hr
          exact ⟨q, List.mem_cons_of_mem p hq, hqr, hqt⟩
    · rw [earliestRejection_cons_ok hp] at h
      obtain ⟨q, hq, hqr, hqt⟩ := ih h
      exact ⟨q, List.mem_cons_of_mem p hq, hqr, hqt⟩

theorem earliestRejection_none {α ε : Type} :
    ∀ {l : List (SimPromise α ε)},
      (∀ q ∈ l, ∃ a, q.result = .ok a) → earliestRejection l = none := by
  intro l
  induction l with
  | nil => intro _; rfl
  | cons p ps ih =>
    intro h
    obtain ⟨a, ha⟩ := h p (List.mem_cons_self p ps)
    rw [earliestRejection_cons_ok ha]
    exact ih (fun q hq => h q (List.mem_cons_of_mem p hq))

theorem earliestRejection_first {α ε : Type} :
    ∀ {l : List (SimPromise α ε)} {p : SimPromise α ε} {e : ε},
      p ∈ l → p.result = .error e →
      (∀ q ∈ l, ∀ w, q.result = .error w → q = p ∨ p.time < q.time) →
      earliestRejection l = some (e, p.time) := by
  intro l
  induction l with
  | nil => intro p e hmem; cases hmem
  | cons q ps ih =>
    intro p e hmem hres hfirst
    rcases hq : q.result with w | a
    · -- head is rejected
      rcases hfirst q (List.mem_cons_self q ps) w hq with rfl | hlt
      · -- the head is the earliest rejection itself
        have hw : w = e := by rw [hres] at hq; cases hq; rfl
        subst hw
        rcases hr : earliestRejection ps with _ | ⟨e', t'⟩
        · rw [earliestRejection_cons_err_none hq hr]
        · obtain ⟨r, hrmem, hrres, hrt⟩ := earliestRejection_mem hr
          rcases hfirst r (List.mem_cons_of_mem q hrmem) e' hrres with rfl | hlt'
          · rw [earliestRejection_cons_err_some hq hr, if_pos (le_of_eq hrt)]
          · rw [earliestRejection_cons_err_some hq hr, if_pos (le_of_lt (hrt ▸ hlt'))]
      · -- the head is rejected but settles later than `p`
        have hmem' : p ∈ ps := by
          rcases List.mem_cons.mp hmem with rfl | hmem'
          · exact absurd hlt (Nat.lt_irrefl _)
          · exact hmem'
        have htail := ih hmem' hres
          (fun r hr w' hw' => hfirst r (List.mem_cons_of_mem q hr) w' hw')
        rw [earliestRejection_cons_err_some hq htail, if_neg (by omega)]
    · -- head is fulfilled: the decision comes from the tail
      rw [earliestRejection_cons_ok hq]
      rcases List.mem_cons.mp hmem with rfl | hmem'
      · rw [hres] at hq; cases hq
      · exact ih hmem' hres
          (fun r hr w' hw' => hfirst r (List.mem_cons_of_mem q hr) w' hw')

theorem swapResult_eq_error {α ε : Type} {r : Except ε α} {w : α}
    (h : swapResult r = .error w) : r = .ok w := by
  cases r with
  | error e => simp [swapResult] at h
  | ok a =>
    have h' : (Except.error a : Except α ε) = .error w := h
    cases h'
    rfl

/-- C1: for every non-empty sequence of attempts in which at least one
attempt succeeds, `raceSuccess` resolves with the success value of the
attempt that succeeds first in completion order, regardless of that
attempt's position in the input sequence; the outcomes of
later-completing attempts are discarded. -/
theorem C1_raceSuccess_first_success {α ε : Type}
    (ps : List (SimPromise α ε)) (p : SimPromise α ε) (v : α)
    (hmem : p ∈ ps) (hres : p.result = .ok v)
    (hfirst : ∀ q ∈ ps, ∀ w, q.result = .ok w → q = p ∨ p.time < q.time) :
    raceSuccess ps = .ok v := by
  have h1 : earliestRejection (ps.map invert) = some (v, p.time) := by
    have hstep : (invert p).result = .error v := by
      show swapResult p.result = .error v
      rw [hres]; rfl
    apply earliestRejection_first (List.mem_map_of_mem invert hmem) hstep
    intro q hq w hw
    obtain ⟨q₀, hq₀, rfl⟩ := List.mem_map.mp hq
    have hq₀res : q₀.result = .ok w := swapResult_eq_error hw
    rcases hfirst q₀ hq₀ w hq₀res with rfl | hlt
    · exact Or.inl rfl
    · exact Or.inr hlt
  rw [raceSuccess, promiseAll, h1]

/-- C2: for every sequence of attempts in which every attempt fails —
including the empty sequence — and for every assignment of completion
times, `raceSuccess` fails with the aggregate of exactly the failure
values of all attempts, in input order; zero attempts yield the empty
aggregate. -/
theorem C2_raceSuccess_all_fail (α ε : Type) (es : List (ε × Nat)) :
    raceSuccess (α := α)
      (es.map (fun f => { result := .error f.1, time := f.2 })) =
      .error (es.map Prod.fst) := by
  have hn : earliestRejection
      ((es.map (fun f => ({ result := .error f.1, time := f.2 } : SimPromise α ε))).map invert) = none := by
    apply earliestRejection_none
    intro q hq
    obtain ⟨q₀, hq₀, rfl⟩ := List.mem_map.mp hq
    obtain ⟨f, _, rfl⟩ := List.mem_map.mp hq₀
    exact ⟨f.1, rfl⟩
  rw [raceSuccess, promiseAll, hn]
  clear hn
  rw [List.filterMap_map]
  induction es with
  | nil => rfl
  | cons f fs ih => simpa [invert, swapResult, Except.toOption] using ih

/-- Witness for C1: with attempts `[fail "A" at 5, succeed 1 at 3,
fail "B" at 1]` the race resolves to `1` even though a failure settles
first and the success is not the first attempt. -/
theorem C1_witness :
    raceSuccess [({ result := .error "A", time := 5 } : SimPromise Nat String),
                 { result := .ok 1, time := 3 },
                 { result := .error "B", time := 1 }] = .ok 1 := by
  apply C1_raceSuccess_first_success _ { result := .ok 1, time := 3 } 1
    (List.mem_cons_of_mem _ (List.mem_cons_self _ _)) rfl
  intro q hq w hw
  rcases List.mem_cons.mp hq with rfl | hq
  · cases hw
  rcases List.mem_cons.mp hq with rfl | hq
  · cases hw; exact Or.inl rfl
  rcases List.mem_cons.mp hq with rfl | hq
  · cases hw
  · cases hq

/-! ### Lemmas about the upward directory search -/

theorem isErr_iff {ε α : Type} {r : Except ε α} :
    isErr r = true ↔ ∃ e, r = .error e := by
  cases r <;> simp [isErr]

theorem detectGit_stop (fsys : FS) {directory : List String} {iter : Nat}
    (h : directory = [] ∨ iter = 10) :
    detectGit fsys directory iter = .error .noGitRoot := by
  rw [detectGit, dif_pos h]

theorem detectGit_step_err (fsys : FS) {directory : List String} {iter : Nat}
    {e : JsError}
    (h1 : directory ≠ []) (h2 : iter ≠ 10)
    (he : fsys.stat (directory.dropLast ++ [".git"]) = .error e) :
    detectGit fsys directory iter = detectGit fsys directory.dropLast (iter + 1) := by
  rw [detectGit, dif_neg (by simp [h1, h2]), he]

theorem detectGit_step_ok (fsys : FS) {directory : List String} {iter : Nat}
    (h1 : directory ≠ []) (h2 : iter ≠ 10)
    (ho : fsys.stat (directory.dropLast ++ [".git"]) = .ok ()) :
    detectGit fsys directory iter = readGitMeta fsys directory.dropLast := by
  rw [detectGit, dif_neg (by simp [h1, h2]), ho]

theorem detectGit_reach (fsys : FS) (M : List String) :
    ∀ suffix : List String, suffix ≠ [] →
      ∀ iter : Nat, iter + suffix.length ≤ 10 →
      (∀ j, 1 ≤ j → j < suffix.length →
        isErr (fsys.stat ((M ++ suffix.take (suffix.length - j)) ++ [".git"])) = true) →
      fsys.stat (M ++ [".git"]) = .ok () →
      detectGit fsys (M ++ suffix) iter = readGitMeta fsys M := by
  intro suffix
  induction suffix using List.reverseRecOn with
  | nil => intro h; exact absurd rfl h
  | append_singleton l a ih =>
    intro _ iter hiter hmid hM
    have hlen : (l ++ [a]).length = l.length + 1 := by simp
    have hne : M ++ (l ++ [a]) ≠ [] := by simp
    have hit : iter ≠ 10 := by omega
    have hdrop : (M ++ (l ++ [a])).dropLast = M ++ l := by
      rw [← List.append_assoc, List.dropLast_concat]
    rcases eq_or_ne l [] with rfl | hl
    · have hstat : fsys.stat ((M ++ ([] ++ [a])).dropLast ++ [".git"]) = .ok () := by
        rw [hdrop]; simpa using hM
      rw [detectGit_step_ok fsys hne hit hstat, hdrop]
      simp
    · have hlp : 0 < l.length := List.length_pos.mpr hl
      have h1 := hmid 1 le_rfl (by simp; omega)
      have htake : (l ++ [a]).take ((l ++ [a]).length - 1) = l := by
        rw [hlen, Nat.add_sub_cancel, List.take_left]
      rw [htake] at h1
      have hstat : isErr (fsys.stat ((M ++ (l ++ [a])).dropLast ++ [".git"])) = true := by
        rw [hdrop]; exact h1
      obtain ⟨e, he⟩ := isErr_iff.mp hstat
      rw [detectGit_step_err fsys hne hit he, hdrop]
      apply ih hl (iter + 1) (by omega) ?_ hM
      intro j hj hjlt
      have h2 := hmid (j + 1) (by omega) (by omega)
      have htake2 : (l ++ [a]).take ((l ++ [a]).length - (j + 1)) = l.take (l.length - j) := by
        rw [hlen, show l.length + 1 - (j + 1) = l.length - j from by omega]
        exact List.take_append_of_le_length (by omega)
      rw [htake2] at h2
      exact h2

theorem detectGit_exhaust (fsys : FS) (M : List String) :
    ∀ (suffix : List String) (iter : Nat), iter ≤ 10 → 11 ≤ iter + suffix.length →
      (∀ j, 1 ≤ j → j ≤ 10 - iter →
        isErr (fsys.stat ((M ++ suffix.take (suffix.length - j)) ++ [".git"])) = true) →
      detectGit fsys (M ++ suffix) iter = .error .noGitRoot := by
  intro suffix
  induction suffix using List.reverseRecOn with
  | nil => intro iter h1 h2 _; simp at h2; omega
  | append_singleton l a ih =>
    intro iter h1 h2 hmid
    rcases eq_or_ne iter 10 with rfl | hit
    · exact detectGit_stop fsys (Or.inr rfl)
    · have hlen : (l ++ [a]).length = l.length + 1 := by simp
      have hne : M ++ (l ++ [a]) ≠ [] := by simp
      have hdrop : (M ++ (l ++ [a])).dropLast = M ++ l := by
        rw [← List.append_assoc, List.dropLast_concat]
      have h1' := hmid 1 le_rfl (by omega)
      have htake : (l ++ [a]).take ((l ++ [a]).length - 1) = l := by
        rw [hlen, Nat.add_sub_cancel, List.take_left]
      rw [htake] at h1'
      have hstat : isErr (fsys.stat ((M ++ (l ++ [a])).dropLast ++ [".git"])) = true := by
        rw [hdrop]; exact h1'
      obtain ⟨e, he⟩ := isErr_iff.mp hstat
      rw [detectGit_step_err fsys hne hit he, hdrop]
      apply ih (iter + 1) (by omega) (by simp at h2 ⊢; omega)
      intro j hj hjle
      have h2' := hmid (j + 1) (by omega) (by omega)
      have htake2 : (l ++ [a]).take ((l ++ [a]).length - (j + 1)) = l.take (l.length - j) := by
        rw [hlen, show l.length + 1 - (j + 1) = l.length - j from by omega]
        exact List.take_append_of_le_length (by omega)
      rw [htake2] at h2'
      exact h2'

theorem readGitMeta_root {fsys : FS} {root : List String} {g : IGit}
    (h : readGitMeta fsys root = .ok g) : g.root = root := by
  unfold readGitMeta at h
  rcases h1 : fsys.readFile (root ++ [".git", "HEAD"]) with e | c
  · rw [h1] at h; cases h
  · rw [h1] at h
    rcases h2 : fsys.readFile (root ++ [".git", "refs", "heads", branchOf c]) with e | hd
    · simp only [h2] at h; cases h
    · simp only [h2] at h; cases h; rfl

/-- C3: starting `d ≥ 1` levels below the nearest directory that
contains the `.git` marker (the search begins at the parent, so the
start itself is never probed), with the filesystem root not reached
earlier: if `d ≤ 10` then `detectGit` succeeds and returns that marker
directory as root; if the ten nearest parents carry no marker (`d ≥ 11`)
it fails with the not-found error and probes no further parents — the
conclusion holds whatever the filesystem looks like above them. -/
theorem C3_detectGit_depth :
    (∀ (fsys : FS) (M suffix : List String) (g : IGit),
      suffix ≠ [] → suffix.length ≤ 10 →
      (∀ j, 1 ≤ j → j < suffix.length →
        isErr (fsys.stat ((M ++ suffix.take (suffix.length - j)) ++ [".git"])) = true) →
      fsys.stat (M ++ [".git"]) = .ok () →
      readGitMeta fsys M = .ok g →
      detectGit fsys (M ++ suffix) 0 = .ok g ∧ g.root = M)
    ∧ (∀ (fsys : FS) (M suffix : List String), 11 ≤ suffix.length →
      (∀ j, 1 ≤ j → j ≤ 10 →
        isErr (fsys.stat ((M ++ suffix.take (suffix.length - j)) ++ [".git"])) = true) →
      detectGit fsys (M ++ suffix) 0 = .error .noGitRoot) := by
  constructor
  · intro fsys M suffix g hne hlen hmid hM hmeta
    refine ⟨?_, readGitMeta_root hmeta⟩
    rw [detectGit_reach fsys M suffix hne 0 (by omega) hmid hM]
    exact hmeta
  · intro fsys M suffix h11 hmid
    exact detectGit_exhaust fsys M suffix 0 (by omega) (by omega)
      (fun j hj hle => hmid j hj (by omega))

/-- Witness for C3: two levels below the marker the search returns the
marker directory's metadata; twelve levels below any marker it fails
with the not-found error. -/
theorem C3_witness :
    detectGit fsMarker ["m", "a", "b"] 0 =
      .ok { root := ["m"], branch := "main", head := "abc\n" }
    ∧ detectGit fsNoMarker
        ["a", "b", "c", "d", "e", "f", "g", "h", "i", "j", "k", "l"] 0 =
      .error .noGitRoot := by
  constructor
  · exact (C3_detectGit_depth.1 fsMarker ["m"] ["a", "b"]
      { root := ["m"], branch := "main", head := "abc\n" }
      (List.cons_ne_nil _ _) (by decide)
      (fun j h1 h2 => by
        simp at h2
        have hj : j = 1 := by omega
        subst hj
        rfl)
      rfl rfl).1
  · exact C3_detectGit_depth.2 fsNoMarker []
      ["a", "b", "c", "d", "e", "f", "g", "h", "i", "j", "k", "l"]
      (by decide) (fun j h1 h2 => rfl)

/-- C7: during the upward search, every stat failure on the marker
directory — whatever the error's kind — makes the walk move to the
parent directory and increment the depth counter, exactly as if the
marker were missing. -/
theorem C7_detectGit_stat_error (fsys : FS) (directory : List String)
    (iter : Nat) (e : JsError)
    (h1 : directory ≠ []) (h2 : iter ≠ 10)
    (he : fsys.stat (directory.dropLast ++ [".git"]) = .error e) :
    detectGit fsys directory iter = detectGit fsys directory.dropLast (iter + 1) :=
  detectGit_step_err fsys h1 h2 he

/-- Witness for C7: a permission failure on the stat makes the search
step to the parent with the depth counter incremented. -/
theorem C7_witness :
    detectGit fsNoMarker ["a", "b"] 0 = detectGit fsNoMarker ["a"] 1 :=
  C7_detectGit_stat_error fsNoMarker ["a", "b"] 0 .permission
    (List.cons_ne_nil _ _) (by decide) rfl

/-- C10: once the stat of the marker directory succeeds at some
ancestor, the search's overall outcome is exactly the metadata
reader's outcome for that ancestor — the hypotheses say nothing about
higher ancestors, so a metadata read failure there is returned as-is
and nothing above is probed. -/
theorem C10_detectGit_handoff (fsys : FS) (M suffix : List String)
    (hne : suffix ≠ []) (hlen : suffix.length ≤ 10)
    (hmid : ∀ j, 1 ≤ j → j < suffix.length →
      isErr (fsys.stat ((M ++ suffix.take (suffix.length - j)) ++ [".git"])) = true)
    (hM : fsys.stat (M ++ [".git"]) = .ok ()) :
    detectGit fsys (M ++ suffix) 0 = readGitMeta fsys M :=
  detectGit_reach fsys M suffix hne 0 (by omega) hmid hM

/-- Witness for C10: with the marker present but `HEAD` unreadable the
search returns the metadata reader's failure. -/
theorem C10_witness :
    detectGit fsHeadless ["m", "a"] 0 = readGitMeta fsHeadless ["m"]
    ∧ readGitMeta fsHeadless ["m"] = .error .ioError :=
  ⟨C10_detectGit_handoff fsHeadless ["m"] ["a"] (List.cons_ne_nil _ _)
      (by decide) (fun j h1 h2 => by simp at h2; omega) rfl,
    rfl⟩

/-- C5: with `<root>/.git/HEAD` readable, the branch is obtained by
removing the first 16 characters and the final character of its content
(for content `"ref: refs/heads/<branch>\n"` that is exactly
`<branch>`), then `<root>/.git/refs/heads/<branch>` is read and
`{root, branch, head}` returned with `head` the entire second content;
a failure of either read is propagated as-is, with no retry. -/
theorem C5_readGitMeta (fsys : FS) (root : List String) :
    (∀ b : String, branchOf ("ref: refs/heads/" ++ b ++ "\n") = b)
    ∧ (∀ c head, fsys.readFile (root ++ [".git", "HEAD"]) = .ok c →
        fsys.readFile (root ++ [".git", "refs", "heads", branchOf c]) = .ok head →
        readGitMeta fsys root = .ok { root := root, branch := branchOf c, head := head })
    ∧ (∀ c e, fsys.readFile (root ++ [".git", "HEAD"]) = .ok c →
        fsys.readFile (root ++ [".git", "refs", "heads", branchOf c]) = .error e →
        readGitMeta fsys root = .error e)
    ∧ (∀ e, fsys.readFile (root ++ [".git", "HEAD"]) = .error e →
        readGitMeta fsys root = .error e) := by
  refine ⟨?_, ?_, ?_, ?_⟩
  · intro b
    obtain ⟨bl⟩ := b
    show String.mk ((("ref: refs/heads/" ++ String.mk bl ++ "\n").data.drop 16).dropLast)
      = String.mk bl
    rw [String.data_append, String.data_append,
      show ("\n".data) = ['\n'] from rfl,
      show (String.mk bl).data = bl from rfl,
      List.append_assoc,
      show (16 : Nat) = ("ref: refs/heads/".data).length from rfl,
      List.drop_left, List.dropLast_concat]
  · intro c head h1 h2
    rw [readGitMeta, h1]
    simp only [h2]
  · intro c e h1 h2
    rw [readGitMeta, h1]
    simp only [h2]
  · intro e h1
    rw [readGitMeta, h1]

/-- Witness for C5: `HEAD` content `"ref: refs/heads/main\n"` with ref
record `"abc123\n"` yields `{root: ["r"], branch: "main",
head: "abc123\n"}`; an unreadable ref record under `["s"]` and an
absent `HEAD` under `["t"]` propagate their failures. -/
theorem C5_witness :
    branchOf ("ref: refs/heads/" ++ "main" ++ "\n") = "main"
    ∧ readGitMeta fsMeta ["r"] =
        .ok { root := ["r"], branch := "main", head := "abc123\n" }
    ∧ readGitMeta fsMeta ["s"] = .error .permission
    ∧ readGitMeta fsMeta ["t"] = .error .notFound := by
  refine ⟨(C5_readGitMeta fsMeta ["r"]).1 "main", ?_, ?_, ?_⟩
  · have h := (C5_readGitMeta fsMeta ["r"]).2.1 "ref: refs/heads/main\n" "abc123\n" rfl
    have hb : branchOf "ref: refs/heads/main\n" = "main" := rfl
    rw [hb] at h
    exact h rfl
  · have h := (C5_readGitMeta fsMeta ["s"]).2.2.1 "ref: refs/heads/dev\n" .permission rfl
    have hb : branchOf "ref: refs/heads/dev\n" = "dev" := rfl
    rw [hb] at h
    exact h rfl
  · exact (C5_readGitMeta fsMeta ["t"]).2.2.2 .notFound rfl

/-! ### Lemmas about the recursive tree collector -/

theorem FsNode.indOn (P : FsNode → Prop)
    (hfile : ∀ c, P (.file c))
    (hdirErr : ∀ e, P (.dirErr e))
    (hbad : ∀ e, P (.badStat e))
    (hother : P .other)
    (hdir : ∀ entries, (∀ name child, (name, child) ∈ entries → P child) →
      P (.dir entries)) :
    ∀ node, P node := by
  have key : ∀ k node, sizeOf node ≤ k → P node := by
    intro k
    induction k with
    | zero =>
      intro node hle
      cases node <;> simp at hle
    | succ k ih =>
      intro node hle
      cases node with
      | file c => exact hfile c
      | dirErr e => exact hdirErr e
      | badStat e => exact hbad e
      | other => exact hother
      | dir entries =>
        apply hdir
        intro name child hmem
        apply ih
        have h1 : sizeOf (name, child) < sizeOf entries :=
          List.sizeOf_lt_of_mem hmem
        have h2 : sizeOf (FsNode.dir entries) = 1 + sizeOf entries := by simp
        have h3 : sizeOf (name, child) = 1 + sizeOf name + sizeOf child := by simp
        omega
  intro node
  exact key (sizeOf node) node le_rfl

/-- C8: a visited path whose stat succeeds but which is neither a
regular file nor a directory yields the empty mapping, not an error. -/
theorem C8_readRecursively_other (abs : List String) (ext : String) :
    readRecursively abs ext .other = .ok [] := rfl

/-- C4 as stated is false: with filter `"tx"` the file `a.txb` IS
collected (because `".txb".includes("tx")` holds) although its
extension `".txb"` does not satisfy a suffix match against `"tx"`. -/
theorem C4_counterexample :
    ¬ ((readRecursively ["a.txb"] "tx" (.file (.ok "x")) = .ok [(["a.txb"], "x")])
      ↔ specSuffixMatch (extname "a.txb") "tx" = true) := by
  intro h
  have h1 : readRecursively ["a.txb"] "tx" (.file (.ok "x")) = .ok [(["a.txb"], "x")] := rfl
  exact absurd (h.mp h1) (by decide)

/-- C4 (amended): a regular file is included iff its extension passes a
case-sensitive *substring containment* match (`includes`) against the
configured filter — not a suffix match; the empty filter matches every
file; a matching file contributes exactly `{absolutePath: content}` and
a non-matching file contributes the empty mapping. -/
theorem C4_file_filter (abs : List String) (ext : String) (c : String) :
    (extMatches abs ext = true →
      readRecursively abs ext (.file (.ok c)) = .ok [(abs, c)])
    ∧ (extMatches abs ext = false →
      readRecursively abs ext (.file (.ok c)) = .ok [])
    ∧ readRecursively abs "" (.file (.ok c)) = .ok [(abs, c)] := by
  have hempty : extMatches abs "" = true := by
    rw [extMatches]
    cases (extname (abs.getLastD "")).data <;> rfl
  refine ⟨?_, ?_, ?_⟩
  · intro h
    rw [readRecursively, if_pos h]
  · intro h
    rw [readRecursively, if_neg (by rw [h]; exact Bool.false_ne_true)]
  · rw [readRecursively, if_pos hempty]

/-- Witness for C4: with filter `"txt"` the file `a.txt` is collected,
`b.log` is not, and the empty filter collects everything. -/
theorem C4_witness :
    readRecursively ["a.txt"] "txt" (.file (.ok "x")) = .ok [(["a.txt"], "x")]
    ∧ readRecursively ["b.log"] "txt" (.file (.ok "y")) = .ok []
    ∧ readRecursively ["c"] "" (.file (.ok "z")) = .ok [(["c"], "z")] :=
  ⟨(C4_file_filter ["a.txt"] "txt" "x").1 (by decide),
   (C4_file_filter ["b.log"] "txt" "y").2.1 (by decide),
   (C4_file_filter ["c"] "" "z").2.2⟩

theorem readRecursively_failure_spec :
    ∀ node : FsNode, ∀ (abs : List String) (ext : String),
      (hasFailure abs ext node = true →
        ∃ e, readRecursively abs ext node = .error e ∧ e ∈ errorsIn abs ext node)
      ∧ (hasFailure abs ext node = false →
        ∃ kvs, readRecursively abs ext node = .ok kvs) := by
  apply FsNode.indOn
    (P := fun node => ∀ (abs : List String) (ext : String),
      (hasFailure abs ext node = true →
        ∃ e, readRecursively abs ext node = .error e ∧ e ∈ errorsIn abs ext node)
      ∧ (hasFailure abs ext node = false →
        ∃ kvs, readRecursively abs ext node = .ok kvs))
  · -- regular files
    intro c abs ext
    rcases c with e | cont
    · constructor
      · intro h
        have hm : extMatches abs ext = true := h
        refine ⟨e, ?_, ?_⟩
        · rw [readRecursively, if_pos hm]
        · rw [errorsIn, if_pos hm]; exact List.mem_singleton.mpr rfl
      · intro h
        have hm : extMatches abs ext = false := h
        exact ⟨[], by rw [readRecursively, if_neg (by rw [hm]; exact Bool.false_ne_true)]⟩
    · constructor
      · intro h; exact absurd h (by rw [hasFailure]; exact Bool.false_ne_true)
      · intro _
        by_cases hm : extMatches abs ext
        · exact ⟨[(abs, cont)], by rw [readRecursively, if_pos hm]⟩
        · exact ⟨[], by rw [readRecursively, if_neg hm]⟩
  · -- directories whose listing fails
    intro e abs ext
    refine ⟨fun _ => ⟨e, rfl, List.mem_singleton.mpr rfl⟩, fun h => ?_⟩
    exact absurd h (by rw [hasFailure]; simp)
  · -- paths whose stat fails
    intro e abs ext
    refine ⟨fun _ => ⟨e, rfl, List.mem_singleton.mpr rfl⟩, fun h => ?_⟩
    exact absurd h (by rw [hasFailure]; simp)
  · -- anything else
    intro abs ext
    exact ⟨fun h => absurd h (by rw [hasFailure]; exact Bool.false_ne_true),
      fun _ => ⟨[], rfl⟩⟩
  · -- directories
    intro entries ihp abs ext
    have key : ∀ es : List (String × FsNode),
        (∀ name child, (name, child) ∈ es →
          ∀ (a : List String) (x : String),
            (hasFailure a x child = true →
              ∃ e, readRecursively a x child = .error e ∧ e ∈ errorsIn a x child)
            ∧ (hasFailure a x child = false →
              ∃ kvs, readRecursively a x child = .ok kvs)) →
        (anyFailure abs ext es = true →
          ∃ e, readChildren abs ext es = .error e ∧ e ∈ errorsInList abs ext es)
        ∧ (anyFailure abs ext es = false →
          ∃ vs, readChildren abs ext es = .ok vs) := by
      intro es
      induction es with
      | nil =>
        intro _
        exact ⟨fun h => absurd h (by rw [anyFailure]; exact Bool.false_ne_true),
          fun _ => ⟨[], rfl⟩⟩
      | cons hd rest ihrest =>
        intro hall
        obtain ⟨n, c⟩ := hd
        have hc := hall n c (List.mem_cons_self _ _) (abs ++ [n]) ext
        have hrest := ihrest (fun name child hmem a x =>
          hall name child (List.mem_cons_of_mem _ hmem) a x)
        rcases hcf : hasFailure (abs ++ [n]) ext c with _ | _
        · -- the head child has no failure
          obtain ⟨v, hv⟩ := hc.2 hcf
          constructor
          · intro h
            have hrf : anyFailure abs ext rest = true := by
              rw [anyFailure, hcf] at h; simpa using h
            obtain ⟨e, he, hmem⟩ := hrest.1 hrf
            refine ⟨e, ?_, ?_⟩
            · rw [readChildren, hv, he]
            · rw [errorsInList]
              exact List.mem_append_right _ hmem
          · intro h
            have hrf : anyFailure abs ext rest = false := by
              rw [anyFailure, hcf] at h; simpa using h
            obtain ⟨vs, hvs⟩ := hrest.2 hrf
            exact ⟨v :: vs, by rw [readChildren, hv, hvs]⟩
        · -- the head child fails
          obtain ⟨e, he, hmem⟩ := hc.1 hcf
          constructor
          · intro _
            refine ⟨e, ?_, ?_⟩
            · rw [readChildren, he]
            · rw [errorsInList]
              exact List.mem_append_left _ hmem
          · intro h
            rw [anyFailure, hcf] at h
            simp at h
    have hmain := key entries (fun name child hmem a x => ihp name child hmem a x)
    constructor
    · intro h
      have hf : anyFailure abs ext entries = true := h
      obtain ⟨e, he, hmem⟩ := hmain.1 hf
      refine ⟨e, ?_, hmem⟩
      rw [readRecursively, he]
    · intro h
      have hf : anyFailure abs ext entries = false := h
      obtain ⟨vs, hvs⟩ := hmain.2 hf
      exact ⟨vs.foldl jsAssign [], by rw [readRecursively, hvs]⟩

/-- C6: if any stat, read, or directory-listing operation that the
traversal performs anywhere in the subtree fails, the whole collection
fails with one of those underlying failures — the result is an error
carrying no partial mapping; the fan-out is all-must-succeed. -/
theorem C6_readRecursively_aborts (abs : List String) (ext : String)
    (node : FsNode) (h : hasFailure abs ext node = true) :
    ∃ e, readRecursively abs ext node = .error e ∧ e ∈ errorsIn abs ext node :=
  (readRecursively_failure_spec node abs ext).1 h

/-- Witness for C6: a stat failure two directories down aborts the
whole collection with that failure. -/
theorem C6_witness :
    ∃ e, readRecursively [] "" treeWithFailure = .error e
      ∧ e ∈ errorsIn [] "" treeWithFailure :=
  C6_readRecursively_aborts [] "" treeWithFailure rfl

theorem jsInsert_of_not_mem {m : List (List String × String)}
    {k : List String} {v : String}
    (h : k ∉ m.map Prod.fst) : jsInsert m k v = m ++ [(k, v)] := by
  rw [jsInsert, if_neg]
  intro hany
  obtain ⟨p, hp, hpk⟩ := List.any_eq_true.mp hany
  exact h (List.mem_map.mpr ⟨p, hp, by simpa using hpk⟩)

theorem jsAssign_of_disjoint :
    ∀ {n m : List (List String × String)},
      (n.map Prod.fst).Nodup →
      (∀ k ∈ n.map Prod.fst, k ∉ m.map Prod.fst) →
      jsAssign m n = m ++ n := by
  intro n
  induction n with
  | nil => intro m _ _; simp [jsAssign]
  | cons kv rest ih =>
    intro m hnd hdisj
    rw [List.map_cons] at hnd
    obtain ⟨hhead, htail⟩ := List.nodup_cons.mp hnd
    have hk : kv.1 ∉ m.map Prod.fst := hdisj kv.1 (by simp)
    have hstep : jsAssign m (kv :: rest) = jsAssign (m ++ [kv]) rest := by
      obtain ⟨k0, v0⟩ := kv
      rw [jsAssign, List.foldl_cons, jsInsert_of_not_mem hk]
      rfl
    have hdisj2 : ∀ k ∈ rest.map Prod.fst, k ∉ (m ++ [kv]).map Prod.fst := by
      intro k hkr hmem
      rw [List.map_append] at hmem
      rcases List.mem_append.mp hmem with h2 | h2
      · exact hdisj k (by rw [List.map_cons]; exact List.mem_cons_of_mem _ hkr) h2
      · simp at h2
        exact hhead (h2 ▸ hkr)
    rw [hstep, ih htail hdisj2, List.append_assoc]
    rfl

theorem foldl_jsAssign_flatten :
    ∀ (vs : List (List (List String × String))) (acc : List (List String × String)),
      ((acc ++ vs.flatten).map Prod.fst).Nodup →
      vs.foldl jsAssign acc = acc ++ vs.flatten := by
  intro vs
  induction vs with
  | nil => intro acc _; simp
  | cons v rest ih =>
    intro acc hnd
    rw [List.flatten_cons] at hnd ⊢
    rw [List.map_append, List.map_append] at hnd
    obtain ⟨hA, hVR, hAdisj⟩ := List.nodup_append.mp hnd
    obtain ⟨hV, hR, hVdisj⟩ := List.nodup_append.mp hVR
    have hstep : jsAssign acc v = acc ++ v := by
      apply jsAssign_of_disjoint hV
      intro k hkV hkA
      exact hAdisj hkA (List.mem_append_left _ hkV)
    have hnd2 : (((acc ++ v) ++ rest.flatten).map Prod.fst).Nodup := by
      rw [List.map_append, List.map_append, List.nodup_append]
      refine ⟨List.nodup_append.mpr
        ⟨hA, hV, fun a haA haV => hAdisj haA (List.mem_append_left _ haV)⟩, hR, ?_⟩
      intro a haAV haR
      rcases List.mem_append.mp haAV with h1 | h1
      · exact hAdisj h1 (List.mem_append_right _ haR)
      · exact hVdisj h1 haR
    rw [List.foldl_cons, hstep, ih (acc ++ v) hnd2, List.append_assoc]

theorem readRecursively_keys_spec :
    ∀ node : FsNode, ∀ (abs : List String) (ext : String)
      (kvs : List (List String × String)),
      nodupTree node = true →
      readRecursively abs ext node = .ok kvs →
      (kvs.map Prod.fst).Nodup ∧ ∀ kv ∈ kvs, ∃ t, kv.1 = abs ++ t := by
  apply FsNode.indOn
    (P := fun node => ∀ (abs : List String) (ext : String)
      (kvs : List (List String × String)),
      nodupTree node = true →
      readRecursively abs ext node = .ok kvs →
      (kvs.map Prod.fst).Nodup ∧ ∀ kv ∈ kvs, ∃ t, kv.1 = abs ++ t)
  · -- regular files
    intro c abs ext kvs _ h
    rcases c with e | cont
    · by_cases hm : extMatches abs ext
      · rw [readRecursively, if_pos hm] at h
        cases h
      · rw [readRecursively, if_neg hm] at h
        cases h
        exact ⟨by simp, by simp⟩
    · by_cases hm : extMatches abs ext
      · rw [readRecursively, if_pos hm] at h
        cases h
        exact ⟨by simp, by simp⟩
      · rw [readRecursively, if_neg hm] at h
        cases h
        exact ⟨by simp, by simp⟩
  · -- directories whose listing fails
    intro e abs ext kvs _ h
    cases h
  · -- paths whose stat fails
    intro e abs ext kvs _ h
    cases h
  · -- anything else
    intro abs ext kvs _ h
    rw [readRecursively] at h
    cases h
    exact ⟨by simp, by simp⟩
  · -- directories
    intro entries ihp abs ext kvs hwf h
    rw [nodupTree] at hwf
    have key : ∀ es : List (String × FsNode),
        (∀ name child, (name, child) ∈ es →
          ∀ (a : List String) (x : String) (m : List (List String × String)),
            nodupTree child = true → readRecursively a x child = .ok m →
            (m.map Prod.fst).Nodup ∧ ∀ kv ∈ m, ∃ t, kv.1 = a ++ t) →
        nodupEntries es = true →
        ∀ vs, readChildren abs ext es = .ok vs →
          (vs.flatten.map Prod.fst).Nodup
          ∧ ∀ kv ∈ vs.flatten, ∃ n t,
              (∃ c, (n, c) ∈ es) ∧ kv.1 = abs ++ n :: t := by
      intro es
      induction es with
      | nil =>
        intro _ _ vs hvs
        cases hvs
        exact ⟨by simp, by simp⟩
      | cons hd rest ihrest =>
        intro hall hwfe vs hvs
        obtain ⟨n, c⟩ := hd
        rw [nodupEntries] at hwfe
        rw [Bool.and_eq_true, Bool.and_eq_true] at hwfe
        obtain ⟨⟨hwfe1, hwfe2⟩, hwfe3⟩ := hwfe
        rw [Bool.not_eq_eq_eq_not, Bool.not_true] at hwfe1
        simp only [List.any_eq_false, decide_eq_true_eq] at hwfe1
        rcases hv : readRecursively (abs ++ [n]) ext c with e | v
        · rw [readChildren, hv] at hvs
          cases hvs
        · rw [readChildren, hv] at hvs
          rcases hrest : readChildren abs ext rest with e | vs2
          · rw [hrest] at hvs
            cases hvs
          · rw [hrest] at hvs
            cases hvs
            obtain ⟨hvnd, hvshape⟩ :=
              hall n c (List.mem_cons_self _ _) (abs ++ [n]) ext v hwfe2 hv
            obtain ⟨hrnd, hrshape⟩ := ihrest
              (fun name child hmem => hall name child (List.mem_cons_of_mem _ hmem))
              hwfe3 vs2 hrest
            have hshape2 : ∀ kv ∈ v, ∃ t, kv.1 = abs ++ n :: t := by
              intro kv hkv
              obtain ⟨t, ht⟩ := hvshape kv hkv
              refine ⟨t, ?_⟩
              rw [ht, List.append_assoc]
              rfl
            constructor
            · rw [List.flatten_cons, List.map_append, List.nodup_append]
              refine ⟨hvnd, hrnd, ?_⟩
              intro a haV haR
              obtain ⟨kv, hkv, rfl⟩ := List.mem_map.mp haV
              obtain ⟨kv2, hkv2, hkk⟩ := List.mem_map.mp haR
              obtain ⟨t, ht⟩ := hshape2 kv hkv
              obtain ⟨n2, t2, ⟨c2, hc2⟩, ht2⟩ := hrshape kv2 hkv2
              rw [ht, ht2] at hkk
              have hcc := List.append_cancel_left hkk
              have hnn : n2 = n := by
                injection hcc with h1 _
              exact hwfe1 (n2, c2) hc2 hnn
            · intro kv hkv
              rw [List.flatten_cons] at hkv
              rcases List.mem_append.mp hkv with hkv | hkv
              · obtain ⟨t, ht⟩ := hshape2 kv hkv
                exact ⟨n, t, ⟨c, List.mem_cons_self _ _⟩, ht⟩
              · obtain ⟨n2, t2, ⟨c2, hc2⟩, ht2⟩ := hrshape kv hkv
                exact ⟨n2, t2, ⟨c2, List.mem_cons_of_mem _ hc2⟩, ht2⟩
    rcases hch : readChildren abs ext entries with e | vs
    · rw [readRecursively, hch] at h
      cases h
    · rw [readRecursively, hch] at h
      cases h
      obtain ⟨hnd, hshape⟩ := key entries ihp hwf vs hch
      have hfold : vs.foldl jsAssign [] = vs.flatten :=
        foldl_jsAssign_flatten vs [] hnd
      rw [hfold]
      refine ⟨hnd, ?_⟩
      intro kv hkv
      obtain ⟨n, t, _, ht⟩ := hshape kv hkv
      exact ⟨n :: t, ht⟩

/-- C9: on a well-formed tree (distinct entry names per directory, as a
real filesystem guarantees), every key of a successful collection is
the resolved absolute path of the visited file — it extends the
resolved absolute root — and the keys are pairwise distinct, so merging
child mappings never collides on a key. -/
theorem C9_readRecursively_key_invariant (abs : List String) (ext : String)
    (node : FsNode) (kvs : List (List String × String))
    (hwf : nodupTree node = true)
    (h : readRecursively abs ext node = .ok kvs) :
    (kvs.map Prod.fst).Nodup ∧ ∀ kv ∈ kvs, ∃ t, kv.1 = abs ++ t :=
  readRecursively_keys_spec node abs ext kvs hwf h

/-- Witness for C9: collecting a two-level tree yields two distinct
absolute keys below the root. -/
theorem C9_witness :
    (([(["root", "a"], "x"), (["root", "sub", "b"], "y")].map
        (Prod.fst (α := List String) (β := String))).Nodup)
    ∧ ∀ kv ∈ [(["root", "a"], "x"), (["root", "sub", "b"], "y")],
        ∃ t, kv.1 = ["root"] ++ t :=
  C9_readRecursively_key_invariant ["root"] "" treeWellFormed
    [(["root", "a"], "x"), (["root", "sub", "b"], "y")] rfl rfl
